import Mathlib

/-!
Shallow embedding of the channel-ranking core of `src/app.py`.

Python dictionaries are modelled as insertion-ordered association lists
over `String` keys; scores and confidence weights are modelled as exact
rationals. Dictionary reads are first-match lookups (keys of a Python
dict are unique, so first match is the match), and the Python assignment
`d[k] = v` is modelled by `dictSet` (overwrite in place when the key is
present, append otherwise). The stable descending sort performed by
`sorted(..., key=..., reverse=True)` is modelled by insertion sort with
the relation "my key is at least yours", which is stable in the same
sense.
-/

/-- Python dict read (the get method, or subscripting): first-match lookup
in an association list, `none` when the key is absent (a `KeyError` for
the subscript form). -/
def dictFind {β : Type} : List (String × β) → String → Option β
  | [], _ => none
  | (k', v) :: rest, k => if k = k' then some v else dictFind rest k

/-- Python dict get with a default value. -/
def dictGetD {β : Type} (d : List (String × β)) (k : String) (default : β) : β :=
  (dictFind d k).getD default

/-- Python dict assignment of one key: overwrite the value of an existing key in
place, or append a fresh key at the end. -/
def dictSet {β : Type} : List (String × β) → String → β → List (String × β)
  | [], k, v => [(k, v)]
  | (k', v') :: rest, k, v =>
    if k' = k then (k', v) :: rest else (k', v') :: dictSet rest k v

/-- One entry of the `TOPICS` registry of app.py: key, label and emoji. -/
structure Topic where
  key : String
  label : String
  emoji : String
deriving DecidableEq

/-- The static topic registry `TOPICS` (app.py lines 7-18). -/
def TOPICS : List Topic :=
  [⟨"science_technology", "Science & Technology", "🤖"⟩,
   ⟨"business", "Business", "🧳"⟩,
   ⟨"us_politics", "U.S. Politics", "🇺🇸"⟩,
   ⟨"faith_spirituality", "Faith & Spirituality", "🔮"⟩,
   ⟨"dating_relationships", "Dating & Relationships", "💕"⟩,
   ⟨"sports", "Sports", "⚽️"⟩,
   ⟨"live_music", "Live Music", "🎶"⟩,
   ⟨"entertainment", "Entertainment", "📺"⟩,
   ⟨"personal_development", "Personal Development", "📚"⟩,
   ⟨"health_wellness", "Health & Wellness", "💪"⟩]

/-- The key list `TOPIC_KEYS` (app.py line 20). -/
def TOPIC_KEYS : List String := TOPICS.map Topic.key

/-- The display-lookup dict `TOPIC_LABELS` (app.py line 21): each key maps
to the emoji, a space, and the label. -/
def TOPIC_LABELS : List (String × String) :=
  TOPICS.map fun t => (t.key, t.emoji ++ " " ++ t.label)

/-- The `UserProfile` dataclass (app.py lines 101-111): a mutable mapping
from topic key to preference score. -/
structure UserProfile where
  topic_scores : List (String × ℚ)
deriving DecidableEq

/-- The constructor of `UserProfile` (app.py lines 106-107): every given
topic starts at score 0.5. -/
def UserProfile.init (topics : List String) : UserProfile :=
  ⟨topics.map fun topic => (topic, (0.5 : ℚ))⟩

/-- Modelled from the spec: `set_one(topic, score)` of section 4.2, absent
as a method from `src/app.py`. The source performs the single-topic
overwrite by plain dict assignment on the exposed `topic_scores` mapping
(the slider handler, app.py line 419, writing through the alias of
line 433); the model applies that assignment, `dictSet`, to the mapping. -/
def UserProfile.set_one (p : UserProfile) (topic : String) (score : ℚ) : UserProfile :=
  ⟨dictSet p.topic_scores topic score⟩

/-- A channel record as consumed by the engine: its `id` and `name` fields
and an optional `topics` mapping (absent when the record has no `topics`
key at all, which the fetch of the topics mapping with default tolerates). -/
structure Channel where
  id : String
  name : String
  topics : Option (List (String × ℚ))
deriving DecidableEq

/-- One output record of the engine, built by spreading the channel dict
and adding the relevance_score key:
the whole original channel record, augmented with the computed score. -/
structure RankedChannel where
  channel : Channel
  relevance_score : ℚ
deriving DecidableEq

/-- The per-channel relevance computation of `rank_channels` (app.py lines
119-122): the sum, over the entries of the topic mapping obtained by
the channel topics fetch with an empty-dict default, of the profile score fetched by
a topic_scores fetch with default 0.5, times the confidence. -/
def relevance (user_profile : UserProfile) (channel : Channel) : ℚ :=
  ((channel.topics.getD []).map fun tc =>
    dictGetD user_profile.topic_scores tc.1 (0.5 : ℚ) * tc.2).sum

/-- The record appended to `scored_channels` for one channel (app.py lines
124-127). -/
def scoreChannel (user_profile : UserProfile) (channel : Channel) : RankedChannel :=
  ⟨channel, relevance user_profile channel⟩

/-- The comparison realised by the reverse keyed sort of app.py line 129:
a record precedes another when its score is at least as large. -/
def rankRel (a b : RankedChannel) : Prop :=
  b.relevance_score ≤ a.relevance_score

instance : DecidableRel rankRel := fun a b =>
  inferInstanceAs (Decidable (b.relevance_score ≤ a.relevance_score))

instance : IsTotal RankedChannel rankRel :=
  ⟨fun a b => le_total b.relevance_score a.relevance_score⟩

instance : IsTrans RankedChannel rankRel :=
  ⟨fun _ _ _ hab hbc => le_trans hbc hab⟩

/-- The engine `rank_channels` (app.py lines 113-129): score every channel
in input order, then sort the scored records stably by descending
relevance. -/
def rank_channels (user_profile : UserProfile) (channels : List Channel) :
    List RankedChannel :=
  List.insertionSort rankRel (channels.map (scoreChannel user_profile))

/-! Object-level model for the aliasing behaviour of set_scores: Python
dicts are heap objects, so the defensive copy of app.py line 111 is an
allocation of a fresh object holding the entries of the argument. -/

/-- A heap of Python dict objects: an allocation counter and the contents
behind every reference. -/
structure DictHeap where
  next : ℕ
  mem : ℕ → List (String × ℚ)

/-- Allocation of a fresh dict object holding the given entries, as done
by the copy method of a Python dict. -/
def DictHeap.alloc (h : DictHeap) (d : List (String × ℚ)) : ℕ × DictHeap :=
  (h.next, ⟨h.next + 1, fun r => if r = h.next then d else h.mem r⟩)

/-- In-place replacement of the contents of the dict object behind a
reference: any mutation of that object by the caller. -/
def DictHeap.write (h : DictHeap) (r : ℕ) (d : List (String × ℚ)) : DictHeap :=
  ⟨h.next, fun r₀ => if r₀ = r then d else h.mem r₀⟩

/-- A `UserProfile` seen at the Python object level: it holds a reference
to its `topic_scores` dict. -/
structure ProfileObj where
  topic_scores : ℕ

/-- The method `set_scores` (app.py lines 109-111): the profile points at
a fresh copy of the argument dict, never at the argument itself. -/
def ProfileObj.set_scores (_self : ProfileObj) (scores : ℕ) (h : DictHeap) :
    ProfileObj × DictHeap :=
  let r := h.alloc (h.mem scores)
  (⟨r.1⟩, r.2)

/-! Concrete fixtures used by the witness theorems. `chanSports` is the
seed channel `game_on` of app.py line 150. -/

def chanSports : Channel :=
  ⟨"game_on", "Game On Sports", some [("sports", (0.88 : ℚ))]⟩

def chanNoTopics : Channel := ⟨"mystery", "Mystery Hour", none⟩

def profSample : UserProfile := ⟨[("sports", (0.6 : ℚ))]⟩

def heapSample : DictHeap := ⟨1, fun _ => [("sports", (0.6 : ℚ))]⟩

/-! Association-list lemmas -/

theorem dictFind_dictSet_self {β : Type} (d : List (String × β)) (k : String) (v : β) :
    dictFind (dictSet d k v) k = some v := by
  induction d with
  | nil => simp [dictSet, dictFind]
  | cons hd tl ih =>
    obtain ⟨k', v'⟩ := hd
    by_cases h : k' = k
    · subst h
      simp [dictSet, dictFind]
    · have h' : ¬k = k' := fun e => h e.symm
      simp [dictSet, dictFind, h, h', ih]

theorem dictFind_dictSet_ne {β : Type} (d : List (String × β)) (k k' : String) (v : β)
    (hne : k' ≠ k) : dictFind (dictSet d k v) k' = dictFind d k' := by
  induction d with
  | nil => simp [dictSet, dictFind, hne]
  | cons hd tl ih =>
    obtain ⟨k₀, v₀⟩ := hd
    by_cases h : k₀ = k
    · subst h
      simp [dictSet, dictFind, fun h' : k' = k₀ => hne h']
    · simp only [dictSet, if_neg h, dictFind]
      by_cases h' : k' = k₀ <;> simp [h', ih]

theorem dictFind_eq_none_iff {β : Type} (d : List (String × β)) (k : String) :
    dictFind d k = none ↔ k ∉ d.map Prod.fst := by
  induction d with
  | nil => simp [dictFind]
  | cons hd tl ih =>
    obtain ⟨k₀, v₀⟩ := hd
    by_cases h : k = k₀ <;> simp [dictFind, h, ih]

theorem dictGetD_dictSet (d : List (String × ℚ)) (k k' : String) (v q : ℚ) :
    dictGetD (dictSet d k v) k' q = if k' = k then v else dictGetD d k' q := by
  by_cases h : k' = k
  · simp [dictGetD, h, dictFind_dictSet_self]
  · simp [dictGetD, h, dictFind_dictSet_ne d k k' v h]

/-! Relevance lemmas -/

theorem relevance_congr (d₁ d₂ : List (String × ℚ)) (c : Channel)
    (h : ∀ k, dictGetD d₁ k (0.5 : ℚ) = dictGetD d₂ k (0.5 : ℚ)) :
    relevance ⟨d₁⟩ c = relevance ⟨d₂⟩ c := by
  unfold relevance
  exact congrArg List.sum (List.map_congr_left fun tc _ => by rw [h tc.1])


theorem relevanceSum_le (ps : List (String × ℚ)) (t : String) (v : ℚ)
    (hv : dictGetD ps t (0.5 : ℚ) ≤ v) :
    ∀ l : List (String × ℚ), (∀ conf, (t, conf) ∈ l → 0 ≤ conf) →
      (l.map fun tc => dictGetD ps tc.1 (0.5 : ℚ) * tc.2).sum ≤
        (l.map fun tc => dictGetD (dictSet ps t v) tc.1 (0.5 : ℚ) * tc.2).sum := by
  intro l
  induction l with
  | nil => simp
  | cons hd tl ih =>
    obtain ⟨k, conf⟩ := hd
    intro hpos
    have htl := ih fun c hc => hpos c (List.mem_cons_of_mem _ hc)
    simp only [List.map_cons, List.sum_cons]
    rw [dictGetD_dictSet]
    by_cases hk : k = t
    · have hc : (0 : ℚ) ≤ conf := hpos conf (by rw [hk] at *; exact List.mem_cons_self _ _)
      rw [if_pos hk, hk]
      exact add_le_add (mul_le_mul_of_nonneg_right hv hc) htl
    · rw [if_neg hk]
      exact add_le_add_left htl _

theorem relevanceSum_eq_of_not_mem (ps : List (String × ℚ)) (t : String) (v : ℚ)
    (l : List (String × ℚ)) (ht : t ∉ l.map Prod.fst) :
    (l.map fun tc => dictGetD (dictSet ps t v) tc.1 (0.5 : ℚ) * tc.2).sum =
      (l.map fun tc => dictGetD ps tc.1 (0.5 : ℚ) * tc.2).sum := by
  induction l with
  | nil => simp
  | cons hd tl ih =>
    obtain ⟨k, conf⟩ := hd
    simp only [List.map_cons, List.mem_cons, not_or] at ht
    simp only [List.map_cons, List.sum_cons]
    rw [dictGetD_dictSet, if_neg (fun e : k = t => ht.1 e.symm), ih ht.2]

theorem relevanceSum_lt (ps : List (String × ℚ)) (t : String) (v : ℚ)
    (hv : dictGetD ps t (0.5 : ℚ) < v) :
    ∀ (l : List (String × ℚ)) (conf : ℚ), (l.map Prod.fst).Nodup →
      (t, conf) ∈ l → 0 < conf →
      (l.map fun tc => dictGetD ps tc.1 (0.5 : ℚ) * tc.2).sum <
        (l.map fun tc => dictGetD (dictSet ps t v) tc.1 (0.5 : ℚ) * tc.2).sum := by
  intro l
  induction l with
  | nil => simp
  | cons hd tl ih =>
    obtain ⟨k, c₀⟩ := hd
    intro conf hnd hmem hconf
    simp only [List.map_cons, List.nodup_cons] at hnd
    simp only [List.map_cons, List.sum_cons]
    rw [dictGetD_dictSet]
    rcases List.mem_cons.mp hmem with heq | hmem'
    · rw [Prod.mk.injEq] at heq
      obtain ⟨hk, hc⟩ := heq
      subst hk
      subst hc
      rw [if_pos rfl, relevanceSum_eq_of_not_mem ps t v tl hnd.1]
      exact add_lt_add_right (mul_lt_mul_of_pos_right hv hconf) _
    · have hk : ¬k = t := by
        intro e
        subst e
        exact hnd.1 (by simpa using List.mem_map_of_mem Prod.fst hmem')
      rw [if_neg hk]
      exact add_lt_add_left (ih conf hnd.2 hmem' hconf) _

/-! Stability of the descending insertion sort -/

theorem filter_orderedInsert_score (x : RankedChannel) (s : ℚ) :
    ∀ l : List RankedChannel,
      (List.orderedInsert rankRel x l).filter
          (fun a => decide (a.relevance_score = s)) =
        if x.relevance_score = s then
          x :: l.filter (fun a => decide (a.relevance_score = s))
        else l.filter (fun a => decide (a.relevance_score = s)) := by
  intro l
  induction l with
  | nil =>
    by_cases hx : x.relevance_score = s <;>
      simp [List.orderedInsert, List.filter, hx]
  | cons b l ih =>
    by_cases hr : rankRel x b
    · rw [List.orderedInsert, if_pos hr]
      by_cases hx : x.relevance_score = s <;> simp [List.filter_cons, hx]
    · have hlt : x.relevance_score < b.relevance_score := lt_of_not_le hr
      simp only [List.orderedInsert, if_neg hr, List.filter_cons, ih]
      by_cases hx : x.relevance_score = s
      · have hb : ¬b.relevance_score = s := by
          rw [← hx]
          exact ne_of_gt hlt
        simp [hx, hb]
      · by_cases hb : b.relevance_score = s <;> simp [hx, hb]

theorem filter_insertionSort_score (s : ℚ) :
    ∀ l : List RankedChannel,
      (List.insertionSort rankRel l).filter
          (fun a => decide (a.relevance_score = s)) =
        l.filter (fun a => decide (a.relevance_score = s)) := by
  intro l
  induction l with
  | nil => rfl
  | cons b l ih =>
    simp only [List.insertionSort, filter_orderedInsert_score, ih, List.filter_cons]
    by_cases hb : b.relevance_score = s <;> simp [hb]

/-! Claim theorems -/

/-- C1: every record produced by `rank_channels` carries as its relevance
score the sum, over the (topic, confidence) entries of its channel, of
the profile score for the topic (default 0.5 when absent) times the
confidence; and a profile with no entry for a topic gives every channel
the same relevance as the same profile with that topic set to 0.5. -/
theorem rank_channels_relevance_formula (p : UserProfile) (cs : List Channel) :
    (∀ r ∈ rank_channels p cs,
      r.relevance_score = ((r.channel.topics.getD []).map fun tc =>
        dictGetD p.topic_scores tc.1 (0.5 : ℚ) * tc.2).sum) ∧
    (∀ (t : String) (c : Channel), dictFind p.topic_scores t = none →
      relevance ⟨dictSet p.topic_scores t (0.5 : ℚ)⟩ c = relevance p c) := by
  constructor
  · intro r hr
    have hmem : r ∈ cs.map (scoreChannel p) :=
      (List.mem_insertionSort rankRel).mp hr
    obtain ⟨c, _, rfl⟩ := List.mem_map.mp hmem
    rfl
  · intro t c hnone
    refine relevance_congr _ _ c fun k => ?_
    rw [dictGetD_dictSet]
    by_cases hk : k = t
    · subst hk
      simp [dictGetD, hnone]
    · rw [if_neg hk]

theorem rank_channels_relevance_formula_witness :
    (scoreChannel profSample chanSports).relevance_score =
      ((chanSports.topics.getD []).map fun tc =>
        dictGetD profSample.topic_scores tc.1 (0.5 : ℚ) * tc.2).sum ∧
    relevance ⟨dictSet profSample.topic_scores "live_music" (0.5 : ℚ)⟩ chanSports =
      relevance profSample chanSports := by
  have h := rank_channels_relevance_formula profSample [chanSports]
  exact ⟨h.1 (scoreChannel profSample chanSports)
      ((List.mem_insertionSort rankRel).mpr
        (List.mem_map_of_mem _ (List.mem_cons_self _ _))),
    h.2 "live_music" chanSports (by decide)⟩

/-- C2: the output of `rank_channels` is sorted by relevance score in
descending order, and the records holding any fixed score value appear
in exactly the order in which their channels were scored from the input
sequence (stable tie-break). -/
theorem rank_channels_sorted_descending_stable (p : UserProfile) (cs : List Channel) :
    List.Sorted rankRel (rank_channels p cs) ∧
    ∀ s : ℚ, (rank_channels p cs).filter (fun r => decide (r.relevance_score = s)) =
      (cs.map (scoreChannel p)).filter (fun r => decide (r.relevance_score = s)) :=
  ⟨List.sorted_insertionSort rankRel _, fun s => filter_insertionSort_score s _⟩

/-- C3: `rank_channels` returns as many records as there are input
channels, the channels carried by the output records are a permutation of
the input channels (none dropped, none duplicated), and every output
record is exactly its original channel paired with its computed
relevance, so channel data is neither lost nor altered. -/
theorem rank_channels_permutation (p : UserProfile) (cs : List Channel) :
    (rank_channels p cs).length = cs.length ∧
    ((rank_channels p cs).map RankedChannel.channel).Perm cs ∧
    ∀ r ∈ rank_channels p cs,
      r.channel ∈ cs ∧ r = scoreChannel p r.channel := by
  have hperm : (rank_channels p cs).Perm (cs.map (scoreChannel p)) :=
    List.perm_insertionSort rankRel _
  refine ⟨hperm.length_eq.trans (List.length_map _ _), ?_, ?_⟩
  · have h₂ := hperm.map RankedChannel.channel
    have e : (cs.map (scoreChannel p)).map RankedChannel.channel = cs := by
      rw [List.map_map]
      exact List.map_id cs
    rw [e] at h₂
    exact h₂
  · intro r hr
    have hmem : r ∈ cs.map (scoreChannel p) :=
      (List.mem_insertionSort rankRel).mp hr
    obtain ⟨c, hc, rfl⟩ := List.mem_map.mp hmem
    exact ⟨hc, rfl⟩

theorem rank_channels_permutation_witness :
    (scoreChannel profSample chanSports).channel ∈ [chanSports, chanNoTopics] ∧
    scoreChannel profSample chanSports =
      scoreChannel profSample (scoreChannel profSample chanSports).channel := by
  have h := rank_channels_permutation profSample [chanSports, chanNoTopics]
  exact h.2.2 (scoreChannel profSample chanSports)
    ((List.mem_insertionSort rankRel).mpr
      (List.mem_map_of_mem _ (List.mem_cons_self _ _)))

/-- C4: raising the profile score of a single topic t (all other scores
unchanged, which is what `set_one` does) never decreases the relevance of
a channel all of whose confidences for t are non-negative — vacuously
including channels lacking t — and strictly increases the relevance of a
channel whose confidence for t is strictly positive. -/
theorem relevance_monotone_in_topic_score (p : UserProfile) (t : String) (v : ℚ) :
    (∀ c : Channel, dictGetD p.topic_scores t (0.5 : ℚ) ≤ v →
      (∀ conf, (t, conf) ∈ c.topics.getD [] → 0 ≤ conf) →
      relevance p c ≤ relevance (p.set_one t v) c) ∧
    (∀ (c : Channel) (conf : ℚ), dictGetD p.topic_scores t (0.5 : ℚ) < v →
      ((c.topics.getD []).map Prod.fst).Nodup →
      (t, conf) ∈ c.topics.getD [] → 0 < conf →
      relevance p c < relevance (p.set_one t v) c) := by
  constructor
  · intro c hle hpos
    exact relevanceSum_le p.topic_scores t v hle (c.topics.getD []) hpos
  · intro c conf hlt hnd hmem hconf
    exact relevanceSum_lt p.topic_scores t v hlt (c.topics.getD []) conf hnd hmem hconf

theorem relevance_monotone_in_topic_score_witness :
    dictGetD profSample.topic_scores "sports" (0.5 : ℚ) < (0.9 : ℚ) ∧
    relevance profSample chanSports ≤
      relevance (profSample.set_one "sports" (0.9 : ℚ)) chanSports ∧
    relevance profSample chanSports <
      relevance (profSample.set_one "sports" (0.9 : ℚ)) chanSports := by
  have h := relevance_monotone_in_topic_score profSample "sports" (0.9 : ℚ)
  have hlt : dictGetD profSample.topic_scores "sports" (0.5 : ℚ) < (0.9 : ℚ) := by
    norm_num [profSample, dictGetD, dictFind]
  refine ⟨hlt, h.1 chanSports (le_of_lt hlt) ?_,
    h.2 chanSports (0.88 : ℚ) hlt (by simp [chanSports]) (by simp [chanSports])
      (by norm_num)⟩
  intro conf hconf
  have e : conf = (0.88 : ℚ) := by
    have hc := List.mem_singleton.mp hconf
    rw [Prod.mk.injEq] at hc
    exact hc.2
  rw [e]
  norm_num

/-- C5: ranking an empty channel catalog returns the empty sequence (and,
being a total function of its inputs, raises no error). -/
theorem rank_channels_empty_catalog (p : UserProfile) :
    rank_channels p [] = ([] : List RankedChannel) := rfl

/-- C6: the display lookup maps every registered topic key to the string
made of its glyph, a space, and its label, and a lookup yields the
`KeyError`-style `none` exactly when the requested key is not in the
registry. -/
theorem topic_labels_display_lookup :
    (∀ t ∈ TOPICS, dictFind TOPIC_LABELS t.key = some (t.emoji ++ " " ++ t.label)) ∧
    ∀ k : String, dictFind TOPIC_LABELS k = none ↔ k ∉ TOPIC_KEYS := by
  constructor
  · decide
  · intro k
    have e : TOPIC_LABELS.map Prod.fst = TOPIC_KEYS := rfl
    rw [← e]
    exact dictFind_eq_none_iff TOPIC_LABELS k

theorem topic_labels_display_lookup_witness :
    dictFind TOPIC_LABELS "sports" = some "⚽️ Sports" ∧
    dictFind TOPIC_LABELS "cooking" = none := by
  have h := topic_labels_display_lookup
  exact ⟨h.1 ⟨"sports", "Sports", "⚽️"⟩ (by decide),
    (h.2 "cooking").mpr (by decide)⟩

/-- C7: `set_scores` stores a defensive copy — afterwards the profile
holds exactly the entries of the argument dict, and any later mutation of
the caller-held argument dict leaves the stored scores unchanged. -/
theorem set_scores_defensive_copy (h : DictHeap) (p : ProfileObj) (m : ℕ)
    (hm : m < h.next) :
    (p.set_scores m h).2.mem (p.set_scores m h).1.topic_scores = h.mem m ∧
    ∀ d : List (String × ℚ),
      ((p.set_scores m h).2.write m d).mem (p.set_scores m h).1.topic_scores =
        h.mem m := by
  constructor
  · simp [ProfileObj.set_scores, DictHeap.alloc]
  · intro d
    have hne : h.next ≠ m := Nat.ne_of_gt hm
    simp [ProfileObj.set_scores, DictHeap.alloc, DictHeap.write, hne]

theorem set_scores_defensive_copy_witness :
    (0 : ℕ) < heapSample.next ∧
    ((⟨0⟩ : ProfileObj).set_scores 0 heapSample).2.mem
        ((⟨0⟩ : ProfileObj).set_scores 0 heapSample).1.topic_scores =
      heapSample.mem 0 ∧
    (((⟨0⟩ : ProfileObj).set_scores 0 heapSample).2.write 0 []).mem
        ((⟨0⟩ : ProfileObj).set_scores 0 heapSample).1.topic_scores =
      heapSample.mem 0 := by
  have h := set_scores_defensive_copy heapSample ⟨0⟩ 0 (by decide)
  exact ⟨by decide, h.1, h.2 []⟩

/-- C8: the single-topic overwrite stores the given score (any score — no
bounds checking) under the given topic and leaves the stored score of
every other topic unchanged. -/
theorem set_one_single_overwrite (p : UserProfile) (topic : String) (score : ℚ) :
    dictFind (p.set_one topic score).topic_scores topic = some score ∧
    ∀ t, t ≠ topic →
      dictFind (p.set_one topic score).topic_scores t = dictFind p.topic_scores t :=
  ⟨dictFind_dictSet_self _ _ _, fun _ ht => dictFind_dictSet_ne _ _ _ _ ht⟩

theorem set_one_single_overwrite_witness :
    dictFind (profSample.set_one "sports" (1.7 : ℚ)).topic_scores "sports" =
      some (1.7 : ℚ) ∧
    dictFind (profSample.set_one "sports" (1.7 : ℚ)).topic_scores "live_music" =
      dictFind profSample.topic_scores "live_music" := by
  have h := set_one_single_overwrite profSample "sports" (1.7 : ℚ)
  exact ⟨h.1, h.2 "live_music" (by decide)⟩

theorem dictFind_const_map (l : List String) (t : String) (v : ℚ) :
    dictFind (l.map fun k => (k, v)) t = if t ∈ l then some v else none := by
  induction l with
  | nil => simp [dictFind]
  | cons k tl ih =>
    by_cases h : t = k
    · simp [dictFind, h]
    · simp [dictFind, h, ih]

/-- C9: a profile constructed from a list of topics stores exactly 0.5
for every listed topic and nothing for any other topic; construction is
total, and the empty topic list gives the empty score mapping. -/
theorem profile_create_all_half (topics : List String) :
    (∀ t ∈ topics,
      dictFind (UserProfile.init topics).topic_scores t = some (0.5 : ℚ)) ∧
    (∀ t, t ∉ topics → dictFind (UserProfile.init topics).topic_scores t = none) ∧
    (UserProfile.init []).topic_scores = [] := by
  refine ⟨fun t ht => ?_, fun t ht => ?_, rfl⟩
  · rw [UserProfile.init, dictFind_const_map, if_pos ht]
  · rw [UserProfile.init, dictFind_const_map, if_neg ht]

theorem profile_create_all_half_witness :
    dictFind (UserProfile.init TOPIC_KEYS).topic_scores "sports" = some (0.5 : ℚ) ∧
    dictFind (UserProfile.init TOPIC_KEYS).topic_scores "cooking" = none := by
  have h := profile_create_all_half TOPIC_KEYS
  exact ⟨h.1 "sports" (by decide), h.2.1 "cooking" (by decide)⟩

/-- C10: a channel record with no topics mapping at all is still priced
and ranked: its relevance is 0.0, and whenever it is among the input
channels it appears among the channels carried by the output records. -/
theorem rank_channels_topicless_channel (p : UserProfile) (c : Channel)
    (cs : List Channel) (hc : c.topics = none) :
    relevance p c = 0 ∧
    (c ∈ cs → c ∈ (rank_channels p cs).map RankedChannel.channel) := by
  constructor
  · rw [relevance, hc]
    rfl
  · intro hmem
    have hscored : scoreChannel p c ∈ cs.map (scoreChannel p) :=
      List.mem_map_of_mem _ hmem
    have hrank : scoreChannel p c ∈ rank_channels p cs :=
      (List.mem_insertionSort rankRel).mpr hscored
    exact List.mem_map_of_mem RankedChannel.channel hrank

theorem rank_channels_topicless_channel_witness :
    relevance profSample chanNoTopics = 0 ∧
    chanNoTopics ∈
      (rank_channels profSample [chanSports, chanNoTopics]).map
        RankedChannel.channel := by
  have h := rank_channels_topicless_channel profSample chanNoTopics
    [chanSports, chanNoTopics] rfl
  exact ⟨h.1, h.2 (by simp)⟩
